import Mathlib

/-!
Shallow embedding of the firmware-version comparator of the Aruba Central
reporting scripts (`script_firmware_versions.py`) together with the switch
classification helper of `data_pipeline.py`.

Version keys are lists of natural numbers compared lexicographically, the
way Python compares equal-length tuples of ints.  Fallible parsing returns
`Option`.  Sorting is modelled by insertion sort, which is stable, exactly
as Python's `list.sort`.
-/

namespace Aruba

/-- Strict lexicographic order on lists of naturals, as Python compares
tuples of ints. -/
def lexLt : List Nat → List Nat → Bool
  | [], [] => false
  | [], _ :: _ => true
  | _ :: _, [] => false
  | a :: as, b :: bs => if a < b then true else if b < a then false else lexLt as bs

/-- Accumulator-based extraction of maximal digit runs; `cur` holds the
current run in reverse. -/
def runsAux : List Char → List Char → List (List Char)
  | cur, [] => if cur = [] then [] else [cur.reverse]
  | cur, c :: cs =>
    if c.isDigit then runsAux (c :: cur) cs
    else if cur = [] then runsAux [] cs
    else cur.reverse :: runsAux [] cs

/-- All maximal digit runs of a character list, in order of appearance:
the embedding of Python's re.findall of one-or-more digits. -/
def digitRuns (l : List Char) : List (List Char) :=
  runsAux [] l

/-- Decimal value of a digit run, the embedding of Python's int(). -/
def digitsToNat (l : List Char) : Nat :=
  l.foldl (fun acc c => 10 * acc + (c.toNat - 48)) 0

/-- Embedding of `_version_to_tuple`: extract digit runs, keep the first
`len`, pad with zeros to length `len`; `none` on empty input or when no
digit run exists. -/
def version_to_tuple (version : String) (len : Nat) : Option (List Nat) :=
  if version = "" then none
  else
    let numbers := digitRuns version.data
    if numbers = [] then none
    else
      let values := (numbers.take len).map digitsToNat
      some (values ++ List.replicate (len - values.length) 0)

/-- Sort key used by `filter_versions_same_branch_higher`: the parsed
tuple, with an all-zero fallback for unparsable strings (Python's
`_version_to_tuple(v) or (0, 0, 0, 0)`). -/
def sortKeyFun (v : String) : List Nat :=
  (version_to_tuple v 4).getD [0, 0, 0, 0]

/-- Nonstrict comparison by key, the order relation handed to the stable
sort. -/
def keyLe {α : Type} (κ : α → List Nat) (a b : α) : Prop :=
  lexLt (κ b) (κ a) = false

instance {α : Type} (κ : α → List Nat) : DecidableRel (keyLe κ) :=
  fun _ _ => inferInstanceAs (Decidable (_ = false))

theorem lexLt_irrefl : ∀ a : List Nat, lexLt a a = false
  | [] => rfl
  | a :: as => by simp [lexLt, lexLt_irrefl as]

theorem lexLt_trans :
    ∀ (a b c : List Nat), lexLt a b = true → lexLt b c = true → lexLt a c = true
  | [], [], _, h1, _ => by simp [lexLt] at h1
  | [], _ :: _, [], _, h2 => by simp [lexLt] at h2
  | [], _ :: _, _ :: _, _, _ => rfl
  | _ :: _, [], _, h1, _ => by simp [lexLt] at h1
  | _ :: _, _ :: _, [], _, h2 => by simp [lexLt] at h2
  | x :: as, y :: bs, z :: cs, h1, h2 => by
    simp only [lexLt] at h1 h2 ⊢
    rcases Nat.lt_trichotomy x y with hxy | hxy | hxy
    · rcases Nat.lt_trichotomy y z with hyz | hyz | hyz
      · rw [if_pos (Nat.lt_trans hxy hyz)]
      · subst hyz; rw [if_pos hxy]
      · rw [if_neg (by omega), if_pos hyz] at h2; exact absurd h2 (by simp)
    · subst hxy
      rw [if_neg (Nat.lt_irrefl x), if_neg (Nat.lt_irrefl x)] at h1
      rcases Nat.lt_trichotomy x z with hxz | hxz | hxz
      · rw [if_pos hxz]
      · subst hxz
        rw [if_neg (Nat.lt_irrefl x), if_neg (Nat.lt_irrefl x)] at h2 ⊢
        exact lexLt_trans as bs cs h1 h2
      · rw [if_neg (by omega), if_pos hxz] at h2; exact absurd h2 (by simp)
    · rw [if_neg (by omega), if_pos hxy] at h1; exact absurd h1 (by simp)

theorem lexLt_eq_of_both_false :
    ∀ (a b : List Nat), lexLt a b = false → lexLt b a = false → a = b
  | [], [], _, _ => rfl
  | [], _ :: _, h1, _ => by simp [lexLt] at h1
  | _ :: _, [], _, h2 => by simp [lexLt] at h2
  | x :: as, y :: bs, h1, h2 => by
    simp only [lexLt] at h1 h2
    rcases Nat.lt_trichotomy x y with h | h | h
    · rw [if_pos h] at h1; exact absurd h1 (by simp)
    · subst h
      rw [if_neg (Nat.lt_irrefl x), if_neg (Nat.lt_irrefl x)] at h1 h2
      rw [lexLt_eq_of_both_false as bs h1 h2]
    · rw [if_pos h] at h2; exact absurd h2 (by simp)

theorem lexLt_asymm (a b : List Nat) (h : lexLt a b = true) : lexLt b a = false := by
  cases hba : lexLt b a with
  | false => rfl
  | true =>
    have h0 := lexLt_trans a b a h hba
    rw [lexLt_irrefl] at h0
    exact absurd h0 (by simp)

theorem keyLe_total_thm {α : Type} (κ : α → List Nat) (a b : α) :
    keyLe κ a b ∨ keyLe κ b a := by
  unfold keyLe
  cases h : lexLt (κ b) (κ a) with
  | false => exact Or.inl rfl
  | true => exact Or.inr (lexLt_asymm _ _ h)

theorem keyLe_trans_thm {α : Type} (κ : α → List Nat) (a b c : α)
    (h1 : keyLe κ a b) (h2 : keyLe κ b c) : keyLe κ a c := by
  unfold keyLe at *
  cases h : lexLt (κ c) (κ a) with
  | false => rfl
  | true =>
    cases hbc : lexLt (κ b) (κ c) with
    | true =>
      have := lexLt_trans _ _ _ hbc h
      rw [this] at h1
      exact absurd h1 (by simp)
    | false =>
      have hcb := lexLt_eq_of_both_false _ _ h2 hbc
      rw [hcb] at h
      rw [h] at h1
      exact absurd h1 (by simp)

instance {α : Type} (κ : α → List Nat) : IsTotal α (keyLe κ) :=
  ⟨keyLe_total_thm κ⟩

instance {α : Type} (κ : α → List Nat) : IsTrans α (keyLe κ) :=
  ⟨keyLe_trans_thm κ⟩

/-- The pre-sort body of `filter_versions_same_branch_higher`'s loop:
candidates that parse, share the branch of the given current tuple and
compare strictly greater than it. -/
def simpleKept (current_tuple : List Nat) (versions : List String) : List String :=
  versions.filter (fun version =>
    match version_to_tuple version 4 with
    | none => false
    | some t => decide (t.take 2 = current_tuple.take 2) && lexLt current_tuple t)

/-- Embedding of `filter_versions_same_branch_higher`: keep the candidates
that parse, share the first-two-segment branch of the current version, and
compare strictly greater; return them sorted (stably) by key.  Unparsable
current version yields the empty list. -/
def filter_versions_same_branch_higher
    (current_version : String) (versions : List String) : List String :=
  match version_to_tuple current_version 4 with
  | none => []
  | some current_tuple =>
    List.insertionSort (keyLe sortKeyFun) (simpleKept current_tuple versions)

/-- Embedding of `max_version_same_branch`: the last element of the sorted
filtered list, or `none` when it is empty. -/
def max_version_same_branch
    (current_version : String) (versions : List String) : Option String :=
  let filtered := filter_versions_same_branch_higher current_version versions
  if filtered = [] then none else filtered.getLast?

/-- Split on the first occurrence of `sep`: the part before it, and the
part after it when `sep` occurs (Python's split with maxsplit one). -/
def splitFirst (sep : Char) : List Char → List Char × Option (List Char)
  | [] => ([], none)
  | c :: cs =>
    if c = sep then ([], some cs)
    else
      let r := splitFirst sep cs
      (c :: r.1, r.2)

/-- The 4-integer zero-padded digit extraction applied by the gateway
parser to each half of a compound version. -/
def extract4 (l : List Char) : List Nat :=
  let values := ((digitRuns l).take 4).map digitsToNat
  values ++ List.replicate (4 - values.length) 0

/-- Embedding of `_gateway_version_to_tuple`: split on the first dash into
main and secondary parts, drop the secondary from its first underscore on,
extract four zero-padded integers from each part and concatenate.  Only the
empty string yields `none`. -/
def gateway_version_to_tuple (version : String) : Option (List Nat) :=
  if version = "" then none
  else
    let parts := splitFirst '-' version.data
    let main_part := parts.1
    let secondary_part := (parts.2).getD []
    let secondary_clean := secondary_part.takeWhile (fun c => c != '_')
    some (extract4 main_part ++ extract4 secondary_clean)

/-- The in-branch pairs (full key, version string) collected from the
catalog by `max_version_same_branch_gateway`'s loop. -/
def gatewayBranchMatches (branch : List Nat) (versions : List String) :
    List (List Nat × String) :=
  versions.filterMap (fun version =>
    match gateway_version_to_tuple version with
    | none => none
    | some t => if t.take 2 = branch then some (t, version) else none)

/-- The full candidate list built by `max_version_same_branch_gateway`:
the in-branch catalog entries, plus the current version as its own
candidate when it is not textually present in the catalog. -/
def gatewayCandidates (current_version : String) (versions : List String) :
    List (List Nat × String) :=
  match gateway_version_to_tuple current_version with
  | none => []
  | some current_tuple_full =>
    let branch := current_tuple_full.take 2
    let base := gatewayBranchMatches branch versions
    if current_version ∈ versions then base
    else if current_tuple_full.take 2 = branch then
      base ++ [(current_tuple_full, current_version)]
    else base

/-- Embedding of `max_version_same_branch_gateway`: guard on empty input,
parse the current version, collect in-branch candidates (with the
self-inclusion fallback), stably sort them by full 8-integer key and
return the string of the last pair. -/
def max_version_same_branch_gateway
    (current_version : String) (versions : List String) : Option String :=
  if current_version = "" ∨ versions = [] then none
  else
    match gateway_version_to_tuple current_version with
    | none => none
    | some _ =>
      let candidates := gatewayCandidates current_version versions
      if candidates = [] then none
      else (List.insertionSort (keyLe Prod.fst) candidates).getLast?.map Prod.snd

/-- The last element attaining the maximal key: a reference description of
what taking the last element of a stably key-sorted list returns. -/
def lastArgmax {α : Type} (κ : α → List Nat) : List α → Option α
  | [] => none
  | a :: l =>
    match lastArgmax κ l with
    | none => some a
    | some m => if lexLt (κ m) (κ a) then some a else some m

theorem mem_of_getLast? {α : Type} {l : List α} {m : α} (h : l.getLast? = some m) :
    m ∈ l := by
  obtain ⟨hne, hm⟩ := List.mem_getLast?_eq_getLast (l := l) (x := m) (Option.mem_def.mpr h)
  rw [hm]
  exact List.getLast_mem hne

theorem getLast?_cons_of_ne_nil {α : Type} (b : α) {l : List α} (h : l ≠ []) :
    (b :: l).getLast? = l.getLast? := by
  cases l with
  | nil => exact absurd rfl h
  | cons c t => simp [List.getLast?_cons_cons]

theorem sorted_getLast?_max {α : Type} (κ : α → List Nat) :
    ∀ (s : List α), List.Sorted (keyLe κ) s → ∀ m, s.getLast? = some m →
      ∀ x ∈ s, lexLt (κ m) (κ x) = false
  | [], _, _, hm, _, _ => by simp at hm
  | [a], _, m, hm, x, hx => by
    simp at hm hx
    subst hm
    subst hx
    exact lexLt_irrefl _
  | a :: b :: t, hs, m, hm, x, hx => by
    rw [getLast?_cons_of_ne_nil a (by simp)] at hm
    rw [List.sorted_cons] at hs
    rcases List.mem_cons.mp hx with rfl | hx
    · exact hs.1 m (mem_of_getLast? hm)
    · exact sorted_getLast?_max κ (b :: t) hs.2 m hm x hx

theorem orderedInsert_ne_nil {α : Type} (κ : α → List Nat) (a : α) (l : List α) :
    List.orderedInsert (keyLe κ) a l ≠ [] := by
  cases l with
  | nil => simp
  | cons b t =>
    simp only [List.orderedInsert]
    by_cases h : keyLe κ a b
    · simp [h]
    · simp [h]

theorem orderedInsert_getLast? {α : Type} (κ : α → List Nat) (a : α) :
    ∀ (s : List α), List.Sorted (keyLe κ) s →
      (List.orderedInsert (keyLe κ) a s).getLast? =
        some (match s.getLast? with
              | none => a
              | some m => if lexLt (κ m) (κ a) then a else m)
  | [], _ => by simp
  | b :: t, hs => by
    simp only [List.orderedInsert]
    by_cases h : keyLe κ a b
    · rw [if_pos h]
      rw [getLast?_cons_of_ne_nil a (by simp)]
      obtain ⟨m, hm⟩ : ∃ m, (b :: t).getLast? = some m :=
        ⟨_, List.getLast?_eq_getLast_of_ne_nil (by simp)⟩
      rw [hm]
      have hbm : keyLe κ b m := sorted_getLast?_max κ (b :: t) hs m hm b (by simp)
      have ham : keyLe κ a m := keyLe_trans_thm κ a b m h hbm
      unfold keyLe at ham
      simp [ham]
    · rw [if_neg h]
      rw [getLast?_cons_of_ne_nil b (orderedInsert_ne_nil κ a t)]
      rw [orderedInsert_getLast? κ a t hs.of_cons]
      cases t with
      | nil =>
        have hba : lexLt (κ b) (κ a) = true := by
          unfold keyLe at h
          cases hh : lexLt (κ b) (κ a) with
          | false => exact absurd hh h
          | true => rfl
        simp [hba]
      | cons c t' =>
        rw [getLast?_cons_of_ne_nil b (by simp)]

theorem insertionSort_getLast?_eq {α : Type} (κ : α → List Nat) :
    ∀ l : List α, (List.insertionSort (keyLe κ) l).getLast? = lastArgmax κ l
  | [] => rfl
  | a :: l => by
    simp only [List.insertionSort]
    rw [orderedInsert_getLast? κ a _ (List.sorted_insertionSort _ _)]
    rw [insertionSort_getLast?_eq κ l]
    cases hm : lastArgmax κ l with
    | none => simp [lastArgmax, hm]
    | some m =>
      simp only [lastArgmax, hm]
      cases hc : lexLt (κ m) (κ a) <;> simp [hc]

theorem lastArgmax_eq_none_iff {α : Type} (κ : α → List Nat) :
    ∀ l : List α, lastArgmax κ l = none ↔ l = []
  | [] => by simp [lastArgmax]
  | a :: l => by
    cases hm : lastArgmax κ l with
    | none => simp [lastArgmax, hm]
    | some m =>
      cases hc : lexLt (κ m) (κ a) <;> simp [lastArgmax, hm, hc]

theorem lastArgmax_mem_max {α : Type} (κ : α → List Nat) :
    ∀ (l : List α) (m : α), lastArgmax κ l = some m →
      m ∈ l ∧ ∀ x ∈ l, lexLt (κ m) (κ x) = false
  | [], m, hm => by simp [lastArgmax] at hm
  | a :: l, m, hm => by
    cases hl : lastArgmax κ l with
    | none =>
      simp only [lastArgmax, hl] at hm
      simp at hm
      subst hm
      have : l = [] := (lastArgmax_eq_none_iff κ l).mp hl
      subst this
      exact ⟨by simp, by simp [lexLt_irrefl]⟩
    | some m' =>
      simp only [lastArgmax, hl] at hm
      obtain ⟨hmem', hmax'⟩ := lastArgmax_mem_max κ l m' hl
      cases hc : lexLt (κ m') (κ a) with
      | true =>
        rw [hc] at hm
        simp at hm
        subst hm
        refine ⟨by simp, ?_⟩
        intro x hx
        rcases List.mem_cons.mp hx with rfl | hx
        · exact lexLt_irrefl _
        · cases hax : lexLt (κ a) (κ x) with
          | false => rfl
          | true =>
            have hxm' : lexLt (κ m') (κ x) = false := hmax' x hx
            cases hxm : lexLt (κ x) (κ m') with
            | true =>
              have h1 := lexLt_trans _ _ _ hax hxm
              have h2 := lexLt_trans _ _ _ h1 hc
              rw [lexLt_irrefl] at h2
              exact absurd h2 (by simp)
            | false =>
              have hxe := lexLt_eq_of_both_false _ _ hxm hxm'
              rw [hxe] at hax
              have h2 := lexLt_trans _ _ _ hax hc
              rw [lexLt_irrefl] at h2
              exact absurd h2 (by simp)
      | false =>
        rw [hc] at hm
        simp at hm
        subst hm
        refine ⟨List.mem_cons_of_mem a hmem', ?_⟩
        intro x hx
        rcases List.mem_cons.mp hx with rfl | hx
        · exact hc
        · exact hmax' x hx

theorem lastArgmax_decomp {α : Type} (κ : α → List Nat) :
    ∀ (l : List α) (m : α), lastArgmax κ l = some m →
      ∃ l₁ l₂, l = l₁ ++ m :: l₂ ∧ ∀ x ∈ l₂, lexLt (κ x) (κ m) = true
  | [], m, hm => by simp [lastArgmax] at hm
  | a :: l, m, hm => by
    cases hl : lastArgmax κ l with
    | none =>
      simp only [lastArgmax, hl] at hm
      simp at hm
      subst hm
      have : l = [] := (lastArgmax_eq_none_iff κ l).mp hl
      subst this
      exact ⟨[], [], rfl, by simp⟩
    | some m' =>
      simp only [lastArgmax, hl] at hm
      obtain ⟨hmem', hmax'⟩ := lastArgmax_mem_max κ l m' hl
      cases hc : lexLt (κ m') (κ a) with
      | true =>
        rw [hc] at hm
        simp at hm
        subst hm
        refine ⟨[], l, by simp, ?_⟩
        intro x hx
        have hxm' : lexLt (κ m') (κ x) = false := hmax' x hx
        cases hxm : lexLt (κ x) (κ m') with
        | true => exact lexLt_trans _ _ _ hxm hc
        | false =>
          have hxe := lexLt_eq_of_both_false _ _ hxm hxm'
          rw [hxe]
          exact hc
      | false =>
        rw [hc] at hm
        simp at hm
        subst hm
        obtain ⟨l₁, l₂, hdec, hsuf⟩ := lastArgmax_decomp κ l m' hl
        exact ⟨a :: l₁, l₂, by simp [hdec], hsuf⟩

theorem runsAux_ne_nil : ∀ (l cur : List Char), cur ≠ [] → runsAux cur l ≠ []
  | [], cur, h => by simp [runsAux, h]
  | c :: cs, cur, h => by
    simp only [runsAux]
    by_cases hd : c.isDigit
    · simp only [hd, if_true]
      exact runsAux_ne_nil cs (c :: cur) (by simp)
    · simp [hd, h]

theorem digitRuns_eq_nil_iff :
    ∀ l : List Char, digitRuns l = [] ↔ ∀ c ∈ l, c.isDigit = false
  | [] => by simp [digitRuns, runsAux]
  | c :: cs => by
    by_cases hd : c.isDigit
    · constructor
      · intro h
        have hne : digitRuns (c :: cs) ≠ [] := by
          show runsAux [] (c :: cs) ≠ []
          simp only [runsAux, hd, if_true]
          exact runsAux_ne_nil cs [c] (by simp)
        exact absurd h hne
      · intro h
        exact absurd (h c (by simp)) (by simp [hd])
    · have hstep : digitRuns (c :: cs) = digitRuns cs := by
        show runsAux [] (c :: cs) = runsAux [] cs
        simp only [runsAux]
        simp [hd]
      rw [hstep, digitRuns_eq_nil_iff cs]
      constructor
      · intro h d hdm
        rcases List.mem_cons.mp hdm with rfl | hdm
        · simp at hd; exact hd
        · exact h d hdm
      · intro h d hdm
        exact h d (List.mem_cons_of_mem c hdm)

theorem runsAux_all_digit :
    ∀ (l cur : List Char), (∀ c ∈ cur, c.isDigit = true) →
      ∀ r ∈ runsAux cur l, r ≠ [] ∧ ∀ c ∈ r, c.isDigit = true
  | [], cur, hcur => by
    simp only [runsAux]
    by_cases h : cur = []
    · simp [h]
    · simp only [h, if_false]
      intro r hr
      simp at hr
      subst hr
      refine ⟨by simp [h], ?_⟩
      intro c hc
      exact hcur c (List.mem_reverse.mp hc)
  | c :: cs, cur, hcur => by
    simp only [runsAux]
    by_cases hd : c.isDigit
    · simp only [hd, if_true]
      refine runsAux_all_digit cs (c :: cur) ?_
      intro d hdm
      rcases List.mem_cons.mp hdm with rfl | hdm
      · exact hd
      · exact hcur d hdm
    · simp only [hd]
      by_cases h : cur = []
      · simp only [h, if_true, if_false]
        exact runsAux_all_digit cs [] (by simp)
      · simp only [h, if_false]
        intro r hr
        rcases List.mem_cons.mp hr with rfl | hr
        · refine ⟨by simp [h], ?_⟩
          intro d hdm
          exact hcur d (List.mem_reverse.mp hdm)
        · exact runsAux_all_digit cs [] (by simp) r hr

theorem digitRuns_sound (l : List Char) :
    ∀ r ∈ digitRuns l, r ≠ [] ∧ ∀ c ∈ r, c.isDigit = true :=
  runsAux_all_digit l [] (by simp)

theorem runsAux_append_digits :
    ∀ (r cur rest : List Char), (∀ c ∈ r, c.isDigit = true) →
      runsAux cur (r ++ rest) = runsAux (r.reverse ++ cur) rest
  | [], cur, rest, _ => by simp
  | c :: r', cur, rest, h => by
    simp only [List.cons_append, runsAux, List.append_eq]
    rw [if_pos (h c (by simp))]
    rw [runsAux_append_digits r' (c :: cur) rest (fun d hd => h d (by simp [hd]))]
    simp [List.append_assoc]

theorem digitRuns_run_cons (r : List Char) (c : Char) (l : List Char)
    (hr : ∀ d ∈ r, d.isDigit = true) (hne : r ≠ []) (hc : c.isDigit = false) :
    digitRuns (r ++ c :: l) = r :: digitRuns l := by
  unfold digitRuns
  rw [show runsAux [] (r ++ c :: l) = runsAux ([] : List Char) (r ++ c :: l) from rfl]
  rw [runsAux_append_digits r [] (c :: l) hr]
  simp only [List.append_nil, runsAux, hc]
  have hrev : r.reverse ≠ [] := by simp [hne]
  simp [hrev]

/-- Contiguous-substring test on character lists, the embedding of
Python's in operator on strings. -/
def containsSub (needle : List Char) : List Char → Bool
  | [] => needle.isEmpty
  | b :: bs => needle.isPrefixOf (b :: bs) || containsSub needle bs

/-- Python truthiness of an optional list: present and non-empty. -/
def pyTruthy (o : Option (List String)) : Bool :=
  match o with
  | none => false
  | some l => !l.isEmpty

theorem version_to_tuple_eq_none_iff (s : String) :
    version_to_tuple s 4 = none ↔ (s = "" ∨ ∀ c ∈ s.data, c.isDigit = false) := by
  unfold version_to_tuple
  by_cases hs : s = ""
  · simp [hs]
  · simp only [hs, if_false, false_or]
    by_cases hn : digitRuns s.data = []
    · rw [if_pos hn]
      exact iff_of_true rfl ((digitRuns_eq_nil_iff s.data).mp hn)
    · rw [if_neg hn]
      refine iff_of_false (by simp) ?_
      intro h
      exact hn ((digitRuns_eq_nil_iff s.data).mpr h)

theorem version_to_tuple_some_eq (s : String) (hs : s ≠ "")
    (hn : digitRuns s.data ≠ []) :
    version_to_tuple s 4 =
      some (((digitRuns s.data).take 4).map digitsToNat ++
        List.replicate (4 - (((digitRuns s.data).take 4).map digitsToNat).length) 0) := by
  unfold version_to_tuple
  simp [hs, hn]

theorem version_to_tuple_length (s : String) (t : List Nat)
    (h : version_to_tuple s 4 = some t) : t.length = 4 := by
  unfold version_to_tuple at h
  by_cases hs : s = ""
  · simp [hs] at h
  · by_cases hn : digitRuns s.data = []
    · simp [hs, hn] at h
    · simp only [hs, hn, if_false, Option.some.injEq] at h
      have hlen : (((digitRuns s.data).take 4).map digitsToNat).length ≤ 4 := by
        rw [List.length_map, List.length_take]
        omega
      rw [← h, List.length_append, List.length_replicate]
      omega

theorem extract4_length (l : List Char) : (extract4 l).length = 4 := by
  unfold extract4
  have hlen : (((digitRuns l).take 4).map digitsToNat).length ≤ 4 := by
    rw [List.length_map, List.length_take]
    omega
  rw [List.length_append, List.length_replicate]
  omega

theorem extract4_of_no_digit (l : List Char) (h : digitRuns l = []) :
    extract4 l = [0, 0, 0, 0] := by
  unfold extract4
  rw [h]
  rfl

theorem version_to_tuple_eq_extract4 (s : String) (hs : s ≠ "")
    (hn : digitRuns s.data ≠ []) :
    version_to_tuple s 4 = some (extract4 s.data) := by
  rw [version_to_tuple_some_eq s hs hn]
  rfl

theorem gateway_eq_none_iff (s : String) :
    gateway_version_to_tuple s = none ↔ s = "" := by
  unfold gateway_version_to_tuple
  by_cases hs : s = "" <;> simp [hs]

theorem gateway_some_eq (s : String) (hs : s ≠ "") :
    gateway_version_to_tuple s =
      some (extract4 (splitFirst '-' s.data).1 ++
        extract4 (((splitFirst '-' s.data).2.getD []).takeWhile (fun c => c != '_'))) := by
  unfold gateway_version_to_tuple
  simp [hs]

theorem gateway_length (s : String) (t : List Nat)
    (h : gateway_version_to_tuple s = some t) : t.length = 8 := by
  by_cases hs : s = ""
  · rw [hs, (gateway_eq_none_iff "").mpr rfl] at h
    simp at h
  · rw [gateway_some_eq s hs] at h
    simp only [Option.some.injEq] at h
    rw [← h, List.length_append, extract4_length, extract4_length]

theorem gatewayBranchMatches_mem (branch : List Nat) (vs : List String)
    (k : List Nat) (s : String) :
    (k, s) ∈ gatewayBranchMatches branch vs ↔
      s ∈ vs ∧ gateway_version_to_tuple s = some k ∧ k.take 2 = branch := by
  unfold gatewayBranchMatches
  rw [List.mem_filterMap]
  constructor
  · rintro ⟨v, hv, hf⟩
    cases hp : gateway_version_to_tuple v with
    | none => rw [hp] at hf; simp at hf
    | some t =>
      rw [hp] at hf
      simp only [] at hf
      by_cases hb : t.take 2 = branch
      · rw [if_pos hb] at hf
        simp only [Option.some.injEq, Prod.mk.injEq] at hf
        obtain ⟨hk, hsv⟩ := hf
        subst hk
        subst hsv
        exact ⟨hv, hp, hb⟩
      · rw [if_neg hb] at hf
        simp at hf
  · rintro ⟨hsv, hp, hb⟩
    refine ⟨s, hsv, ?_⟩
    rw [hp]
    simp [hb]

theorem gatewayCandidates_mem (cv : String) (vs : List String) (ct : List Nat)
    (hct : gateway_version_to_tuple cv = some ct) (k : List Nat) (s : String) :
    (k, s) ∈ gatewayCandidates cv vs ↔
      ((s ∈ vs ∧ gateway_version_to_tuple s = some k ∧ k.take 2 = ct.take 2) ∨
       (cv ∉ vs ∧ s = cv ∧ k = ct)) := by
  unfold gatewayCandidates
  rw [hct]
  simp only []
  by_cases hin : cv ∈ vs
  · rw [if_pos hin]
    rw [gatewayBranchMatches_mem]
    constructor
    · intro h
      exact Or.inl h
    · rintro (h | ⟨hno, _, _⟩)
      · exact h
      · exact absurd hin hno
  · rw [if_neg hin, if_pos trivial]
    rw [List.mem_append, gatewayBranchMatches_mem]
    constructor
    · rintro (h | h)
      · exact Or.inl h
      · simp only [List.mem_singleton, Prod.mk.injEq] at h
        exact Or.inr ⟨hin, h.2, h.1⟩
    · rintro (h | ⟨hno, hseq, hkeq⟩)
      · exact Or.inl h
      · subst hseq
        subst hkeq
        exact Or.inr (by simp)

theorem gatewayCandidates_pairs (cv : String) (vs : List String) :
    ∀ p ∈ gatewayCandidates cv vs, gateway_version_to_tuple p.2 = some p.1 := by
  intro p hp
  unfold gatewayCandidates at hp
  cases hct : gateway_version_to_tuple cv with
  | none => rw [hct] at hp; simp at hp
  | some ct =>
    rw [hct] at hp
    simp only [] at hp
    have hbase : ∀ q ∈ gatewayBranchMatches (ct.take 2) vs,
        gateway_version_to_tuple q.2 = some q.1 := by
      intro q hq
      obtain ⟨_, hq2, _⟩ := (gatewayBranchMatches_mem _ _ q.1 q.2).mp (by
        cases q
        exact hq)
      exact hq2
    by_cases hin : cv ∈ vs
    · rw [if_pos hin] at hp
      exact hbase p hp
    · rw [if_neg hin, if_pos trivial] at hp
      rcases List.mem_append.mp hp with h | h
      · exact hbase p h
      · simp only [List.mem_singleton] at h
        subst h
        exact hct

theorem gatewayCandidates_ne_nil (cv : String) (vs : List String) (ct : List Nat)
    (hct : gateway_version_to_tuple cv = some ct) :
    gatewayCandidates cv vs ≠ [] := by
  unfold gatewayCandidates
  rw [hct]
  simp only []
  by_cases hin : cv ∈ vs
  · rw [if_pos hin]
    intro hemp
    have : (ct, cv) ∈ gatewayBranchMatches (ct.take 2) vs :=
      (gatewayBranchMatches_mem _ _ _ _).mpr ⟨hin, hct, rfl⟩
    rw [hemp] at this
    simp at this
  · rw [if_neg hin, if_pos trivial]
    simp

theorem max_gateway_eq_lastArgmax (cv : String) (vs : List String)
    (h1 : cv ≠ "") (h2 : vs ≠ []) :
    max_version_same_branch_gateway cv vs =
      (lastArgmax Prod.fst (gatewayCandidates cv vs)).map Prod.snd := by
  unfold max_version_same_branch_gateway
  rw [if_neg (by simp [h1, h2])]
  cases hp : gateway_version_to_tuple cv with
  | none => exact absurd ((gateway_eq_none_iff cv).mp hp) h1
  | some ct =>
    simp only []
    by_cases hc : gatewayCandidates cv vs = []
    · rw [if_pos hc, hc]
      simp [lastArgmax]
    · rw [if_neg hc]
      rw [insertionSort_getLast?_eq Prod.fst (gatewayCandidates cv vs)]

theorem filter_eq_nil_of_unparsable (cv : String) (vs : List String)
    (h : version_to_tuple cv 4 = none) :
    filter_versions_same_branch_higher cv vs = [] := by
  unfold filter_versions_same_branch_higher
  rw [h]

theorem filter_eq_sort_kept (cv : String) (vs : List String) (ct : List Nat)
    (h : version_to_tuple cv 4 = some ct) :
    filter_versions_same_branch_higher cv vs =
      List.insertionSort (keyLe sortKeyFun) (simpleKept ct vs) := by
  unfold filter_versions_same_branch_higher
  rw [h]

theorem simpleKept_mem (ct : List Nat) (vs : List String) (v : String) :
    v ∈ simpleKept ct vs ↔
      v ∈ vs ∧ ∃ t, version_to_tuple v 4 = some t ∧
        t.take 2 = ct.take 2 ∧ lexLt ct t = true := by
  unfold simpleKept
  rw [List.mem_filter]
  constructor
  · rintro ⟨hv, hpred⟩
    refine ⟨hv, ?_⟩
    cases hp : version_to_tuple v 4 with
    | none => rw [hp] at hpred; simp at hpred
    | some t =>
      rw [hp] at hpred
      simp only [Bool.and_eq_true, decide_eq_true_eq] at hpred
      exact ⟨t, rfl, hpred.1, hpred.2⟩
  · rintro ⟨hv, t, hp, hb, hgt⟩
    refine ⟨hv, ?_⟩
    rw [hp]
    simp [hb, hgt]

theorem simpleKept_key (ct : List Nat) (vs : List String) (v : String)
    (h : v ∈ simpleKept ct vs) :
    version_to_tuple v 4 = some (sortKeyFun v) := by
  obtain ⟨_, t, hp, _, _⟩ := (simpleKept_mem ct vs v).mp h
  rw [hp]
  unfold sortKeyFun
  rw [hp]
  rfl

theorem max_simple_eq_getLast? (cv : String) (vs : List String) :
    max_version_same_branch cv vs =
      (filter_versions_same_branch_higher cv vs).getLast? := by
  unfold max_version_same_branch
  by_cases h : filter_versions_same_branch_higher cv vs = []
  · rw [if_pos h, h]
    rfl
  · rw [if_neg h]

theorem max_simple_eq_lastArgmax (cv : String) (vs : List String) (ct : List Nat)
    (h : version_to_tuple cv 4 = some ct) :
    max_version_same_branch cv vs =
      lastArgmax sortKeyFun (simpleKept ct vs) := by
  rw [max_simple_eq_getLast?, filter_eq_sort_kept cv vs ct h]
  exact insertionSort_getLast?_eq sortKeyFun (simpleKept ct vs)

/-- Embedding of `determiner_version_max` from
`data_pipeline._calculer_firmware_max_switches`: dispatch on the
upper-cased model name, models containing 2930F against the HP catalog,
then models containing 6300 or CX against the CX catalog, and feed the
chosen catalog to the simple-dialect comparator. -/
def determiner_version_max (versions_hp versions_cx : Option (List String))
    (modele : Option String) (version_actuelle : Option String) : Option String :=
  match version_actuelle with
  | none => none
  | some va =>
    if va = "" then none
    else
      let modele_upper := ((modele.getD "").data).map Char.toUpper
      let base_versions : Option (List String) :=
        if pyTruthy versions_hp && containsSub "2930F".data modele_upper then
          versions_hp
        else if pyTruthy versions_cx &&
            (containsSub "6300".data modele_upper ||
             containsSub "CX".data modele_upper) then
          versions_cx
        else none
      match base_versions with
      | none => none
      | some l => if l = [] then none else max_version_same_branch va l

theorem getLast?_isSome_iff {α : Type} (l : List α) :
    l.getLast?.isSome = true ↔ l ≠ [] := by
  cases l with
  | nil => simp
  | cons a t =>
    constructor
    · intro _
      simp
    · intro _
      rw [List.getLast?_eq_getLast_of_ne_nil (by simp)]
      rfl

/-- C3: simple-dialect parsing extracts all maximal digit runs in order of
appearance ignoring every non-digit character, keeps at most the first
four numbers, pads with zeros to length four, and returns none exactly
when the input is empty or contains no digit; in particular the four
listed examples hold. -/
theorem C3_simple_parse :
    (∀ s : String, version_to_tuple s 4 = none ↔
      (s = "" ∨ ∀ c ∈ s.data, c.isDigit = false)) ∧
    (∀ (s : String) (t : List Nat), version_to_tuple s 4 = some t →
      t.length = 4 ∧
      t = ((digitRuns s.data).take 4).map digitsToNat ++
        List.replicate (4 - (((digitRuns s.data).take 4).map digitsToNat).length) 0) ∧
    (∀ l : List Char, ∀ r ∈ digitRuns l, r ≠ [] ∧ ∀ c ∈ r, c.isDigit = true) ∧
    (∀ (r : List Char) (c : Char) (l : List Char),
      (∀ d ∈ r, d.isDigit = true) → r ≠ [] → c.isDigit = false →
      digitRuns (r ++ c :: l) = r :: digitRuns l) ∧
    version_to_tuple "8.13.0.0" 4 = some [8, 13, 0, 0] ∧
    version_to_tuple "8.13" 4 = some [8, 13, 0, 0] ∧
    version_to_tuple "" 4 = none ∧
    version_to_tuple "abc" 4 = none := by
  refine ⟨version_to_tuple_eq_none_iff, ?_, (fun l => digitRuns_sound l),
    digitRuns_run_cons, by decide, by decide, by decide, by decide⟩
  intro s t h
  have hnone : ¬(s = "" ∨ ∀ c ∈ s.data, c.isDigit = false) := by
    rw [← version_to_tuple_eq_none_iff, h]
    simp
  push_neg at hnone
  obtain ⟨hs, hnd⟩ := hnone
  have hn : digitRuns s.data ≠ [] := by
    intro he
    obtain ⟨c, hc, hcd⟩ := hnd
    exact hcd ((digitRuns_eq_nil_iff s.data).mp he c hc)
  refine ⟨version_to_tuple_length s t h, ?_⟩
  rw [version_to_tuple_some_eq s hs hn] at h
  simp only [Option.some.injEq] at h
  exact h.symm

theorem C3_witness :
    ([8, 13, 0, 0] : List Nat).length = 4 ∧
    ([8, 13, 0, 0] : List Nat) =
      ((digitRuns "8.13".data).take 4).map digitsToNat ++
        List.replicate (4 - (((digitRuns "8.13".data).take 4).map digitsToNat).length) 0 :=
  C3_simple_parse.2.1 "8.13" [8, 13, 0, 0] (by decide)

/-- C4: gateway parsing splits on the first dash, drops the secondary part
from its first underscore on, applies the 4-integer zero-padded extraction
to each part and concatenates into eight integers; it is none exactly on
the empty string, while a non-empty string with no digits yields an
all-zero component; the three listed examples hold. -/
theorem C4_gateway_parse :
    (∀ s : String, gateway_version_to_tuple s = none ↔ s = "") ∧
    (∀ s : String, s ≠ "" →
      gateway_version_to_tuple s =
        some (extract4 (splitFirst '-' s.data).1 ++
          extract4 (((splitFirst '-' s.data).2.getD []).takeWhile (fun c => c != '_')))) ∧
    (∀ (s : String) (t : List Nat), gateway_version_to_tuple s = some t →
      t.length = 8) ∧
    (∀ l : List Char, digitRuns l = [] → extract4 l = [0, 0, 0, 0]) ∧
    (∀ s : String, s ≠ "" → digitRuns s.data ≠ [] →
      version_to_tuple s 4 = some (extract4 s.data)) ∧
    gateway_version_to_tuple "8.7.0.0-2.3.0.9_85196" = some [8, 7, 0, 0, 2, 3, 0, 9] ∧
    gateway_version_to_tuple "8.7.0.0" = some [8, 7, 0, 0, 0, 0, 0, 0] ∧
    gateway_version_to_tuple "" = none :=
  ⟨gateway_eq_none_iff, gateway_some_eq, gateway_length, extract4_of_no_digit,
   version_to_tuple_eq_extract4, by decide, by decide, by decide⟩

theorem C4_witness :
    gateway_version_to_tuple "8.7.0.0" =
      some (extract4 (splitFirst '-' "8.7.0.0".data).1 ++
        extract4 (((splitFirst '-' "8.7.0.0".data).2.getD []).takeWhile
          (fun c => c != '_'))) :=
  C4_gateway_parse.2.1 "8.7.0.0" (by decide)

/-- C5: the branch filter returns exactly the catalog entries whose parsed
key shares the current version's two-integer branch and is strictly
greater under lexicographic order, sorted ascending by key (unparsable
candidates dropped silently), and it returns the empty sequence when the
current version is unparsable. -/
theorem C5_filter_characterisation :
    (∀ (cv : String) (vs : List String), version_to_tuple cv 4 = none →
      filter_versions_same_branch_higher cv vs = []) ∧
    (∀ (cv : String) (vs : List String) (ct : List Nat),
      version_to_tuple cv 4 = some ct →
      (∀ v, v ∈ filter_versions_same_branch_higher cv vs ↔
          v ∈ vs ∧ ∃ t, version_to_tuple v 4 = some t ∧
            t.take 2 = ct.take 2 ∧ lexLt ct t = true) ∧
      List.Sorted (keyLe sortKeyFun) (filter_versions_same_branch_higher cv vs) ∧
      (∀ v ∈ filter_versions_same_branch_higher cv vs,
        version_to_tuple v 4 = some (sortKeyFun v))) := by
  refine ⟨filter_eq_nil_of_unparsable, ?_⟩
  intro cv vs ct h
  rw [filter_eq_sort_kept cv vs ct h]
  refine ⟨?_, List.sorted_insertionSort _ _, ?_⟩
  · intro v
    rw [List.mem_insertionSort, simpleKept_mem]
  · intro v hv
    exact simpleKept_key ct vs v ((List.mem_insertionSort _).mp hv)

theorem C5_witness :
    (∀ v, v ∈ filter_versions_same_branch_higher "8.13.0.0" ["8.13.0.1"] ↔
        v ∈ ["8.13.0.1"] ∧ ∃ t, version_to_tuple v 4 = some t ∧
          t.take 2 = ([8, 13, 0, 0] : List Nat).take 2 ∧
          lexLt [8, 13, 0, 0] t = true) ∧
    List.Sorted (keyLe sortKeyFun)
      (filter_versions_same_branch_higher "8.13.0.0" ["8.13.0.1"]) ∧
    (∀ v ∈ filter_versions_same_branch_higher "8.13.0.0" ["8.13.0.1"],
      version_to_tuple v 4 = some (sortKeyFun v)) :=
  C5_filter_characterisation.2 "8.13.0.0" ["8.13.0.1"] [8, 13, 0, 0] (by decide)

/-- C2: the simple-dialect maximum is the last element of the branch
filter, or none when that sequence is empty; any returned version is a
catalog entry different from the current version with a strictly greater
key in the same branch, and a catalog holding only the current version
itself yields none. -/
theorem C2_max_same_branch :
    (∀ (cv : String) (vs : List String),
      max_version_same_branch cv vs =
        (filter_versions_same_branch_higher cv vs).getLast?) ∧
    (∀ (cv r : String) (vs : List String),
      max_version_same_branch cv vs = some r →
      r ∈ vs ∧ r ≠ cv ∧
        ∃ ct t, version_to_tuple cv 4 = some ct ∧ version_to_tuple r 4 = some t ∧
          t.take 2 = ct.take 2 ∧ lexLt ct t = true) ∧
    (∀ cv : String, max_version_same_branch cv [cv] = none) := by
  refine ⟨max_simple_eq_getLast?, ?_, ?_⟩
  · intro cv r vs h
    rw [max_simple_eq_getLast?] at h
    have hct : ∃ ct, version_to_tuple cv 4 = some ct := by
      cases hp : version_to_tuple cv 4 with
      | none =>
        rw [filter_eq_nil_of_unparsable cv vs hp] at h
        simp at h
      | some ct => exact ⟨ct, rfl⟩
    obtain ⟨ct, hp⟩ := hct
    have hmem : r ∈ filter_versions_same_branch_higher cv vs := mem_of_getLast? h
    rw [filter_eq_sort_kept cv vs ct hp, List.mem_insertionSort, simpleKept_mem]
      at hmem
    obtain ⟨hin, t, hrt, hb, hgt⟩ := hmem
    refine ⟨hin, ?_, ct, t, hp, hrt, hb, hgt⟩
    intro he
    subst he
    rw [hp] at hrt
    simp only [Option.some.injEq] at hrt
    subst hrt
    rw [lexLt_irrefl] at hgt
    exact absurd hgt (by simp)
  · intro cv
    rw [max_simple_eq_getLast?]
    cases hp : version_to_tuple cv 4 with
    | none => rw [filter_eq_nil_of_unparsable cv [cv] hp]; rfl
    | some ct =>
      have hkept : simpleKept ct [cv] = [] := by
        unfold simpleKept
        simp [List.filter, hp, lexLt_irrefl]
      rw [filter_eq_sort_kept cv [cv] ct hp, hkept]
      rfl

theorem C2_witness :
    "8.13.0.1" ∈ ["8.13.0.1"] ∧ "8.13.0.1" ≠ "8.13.0.0" ∧
    ∃ ct t, version_to_tuple "8.13.0.0" 4 = some ct ∧
      version_to_tuple "8.13.0.1" 4 = some t ∧
      t.take 2 = ct.take 2 ∧ lexLt ct t = true :=
  C2_max_same_branch.2.1 "8.13.0.0" "8.13.0.1" ["8.13.0.1"] (by decide)

/-- C7: the comparator functions are total: malformed or missing version
strings propagate only as none or the empty sequence, empty catalogs yield
none, and every successfully parsed key has its documented fixed length. -/
theorem C7_totality :
    (∀ (cv : String) (vs : List String), version_to_tuple cv 4 = none →
      filter_versions_same_branch_higher cv vs = [] ∧
      max_version_same_branch cv vs = none) ∧
    (∀ (cv : String) (vs : List String), gateway_version_to_tuple cv = none →
      max_version_same_branch_gateway cv vs = none) ∧
    (∀ cv : String, max_version_same_branch cv [] = none) ∧
    (∀ cv : String, max_version_same_branch_gateway cv [] = none) ∧
    (∀ (s : String) (t : List Nat), version_to_tuple s 4 = some t →
      t.length = 4) ∧
    (∀ (s : String) (t : List Nat), gateway_version_to_tuple s = some t →
      t.length = 8) := by
  refine ⟨?_, ?_, ?_, ?_, version_to_tuple_length, gateway_length⟩
  · intro cv vs h
    refine ⟨filter_eq_nil_of_unparsable cv vs h, ?_⟩
    rw [max_simple_eq_getLast?, filter_eq_nil_of_unparsable cv vs h]
    rfl
  · intro cv vs h
    have hcv : cv = "" := (gateway_eq_none_iff cv).mp h
    subst hcv
    unfold max_version_same_branch_gateway
    rw [if_pos (Or.inl rfl)]
  · intro cv
    rw [max_simple_eq_getLast?]
    cases hp : version_to_tuple cv 4 with
    | none => rw [filter_eq_nil_of_unparsable cv [] hp]; rfl
    | some ct =>
      have hkept : simpleKept ct [] = [] := rfl
      rw [filter_eq_sort_kept cv [] ct hp, hkept]
      rfl
  · intro cv
    unfold max_version_same_branch_gateway
    rw [if_pos (Or.inr rfl)]

theorem C7_witness :
    filter_versions_same_branch_higher "abc" ["8.1.0.0"] = [] ∧
    max_version_same_branch "abc" ["8.1.0.0"] = none :=
  C7_totality.1 "abc" ["8.1.0.0"] (by decide)

/-- C1: for a non-empty current version and non-empty catalog, the gateway
maximum collects every candidate whose full key shares the current branch,
includes the current version itself when it is not textually present, and
returns a collected candidate whose full 8-integer key is lexicographically
greatest; in particular it can return the current version itself, as in the
listed example. -/
theorem C1_gateway_full_key_max :
    (∀ (cv : String) (vs : List String) (ct : List Nat),
      gateway_version_to_tuple cv = some ct →
      ∀ (k : List Nat) (s : String),
        (k, s) ∈ gatewayCandidates cv vs ↔
          ((s ∈ vs ∧ gateway_version_to_tuple s = some k ∧ k.take 2 = ct.take 2) ∨
           (cv ∉ vs ∧ s = cv ∧ k = ct))) ∧
    (∀ (cv : String) (vs : List String), cv ≠ "" → vs ≠ [] →
      ∃ p : List Nat × String,
        max_version_same_branch_gateway cv vs = some p.2 ∧
        p ∈ gatewayCandidates cv vs ∧
        gateway_version_to_tuple p.2 = some p.1 ∧
        ∀ q ∈ gatewayCandidates cv vs, lexLt p.1 q.1 = false) ∧
    max_version_same_branch_gateway "8.7.0.0-2.3.0.9" ["8.7.0.0-2.3.0.5"] =
      some "8.7.0.0-2.3.0.9" := by
  refine ⟨gatewayCandidates_mem, ?_, by decide⟩
  intro cv vs h1 h2
  obtain ⟨ct, hct⟩ : ∃ ct, gateway_version_to_tuple cv = some ct := by
    cases hp : gateway_version_to_tuple cv with
    | none => exact absurd ((gateway_eq_none_iff cv).mp hp) h1
    | some ct => exact ⟨ct, rfl⟩
  have hne := gatewayCandidates_ne_nil cv vs ct hct
  rw [max_gateway_eq_lastArgmax cv vs h1 h2]
  cases hl : lastArgmax Prod.fst (gatewayCandidates cv vs) with
  | none => exact absurd ((lastArgmax_eq_none_iff _ _).mp hl) hne
  | some p =>
    obtain ⟨hmem, hmax⟩ := lastArgmax_mem_max Prod.fst _ p hl
    exact ⟨p, rfl, hmem, gatewayCandidates_pairs cv vs p hmem, hmax⟩

theorem C1_witness :
    ∃ p : List Nat × String,
      max_version_same_branch_gateway "8.7.0.0-2.3.0.9" ["8.7.0.0-2.3.0.5"] =
        some p.2 ∧
      p ∈ gatewayCandidates "8.7.0.0-2.3.0.9" ["8.7.0.0-2.3.0.5"] ∧
      gateway_version_to_tuple p.2 = some p.1 ∧
      ∀ q ∈ gatewayCandidates "8.7.0.0-2.3.0.9" ["8.7.0.0-2.3.0.5"],
        lexLt p.1 q.1 = false :=
  C1_gateway_full_key_max.2.1 "8.7.0.0-2.3.0.9" ["8.7.0.0-2.3.0.5"]
    (by decide) (by decide)

/-- C8: the gateway parser never returns none on a non-empty string, so
the early post-parse none return is unreachable and the gateway maximum
never returns none for a non-empty current version and non-empty catalog;
when no catalog candidate shares the current branch, the self-inclusion
guard makes it return the current version itself, and a textually present
current version is always its own in-branch candidate. -/
theorem C8_gateway_nonnone :
    (∀ s : String, s ≠ "" → ∃ t, gateway_version_to_tuple s = some t) ∧
    (∀ (cv : String) (vs : List String), cv ≠ "" → vs ≠ [] →
      ∃ r, max_version_same_branch_gateway cv vs = some r) ∧
    (∀ (cv : String) (vs : List String) (ct : List Nat), cv ≠ "" → vs ≠ [] →
      gateway_version_to_tuple cv = some ct →
      gatewayBranchMatches (ct.take 2) vs = [] →
      max_version_same_branch_gateway cv vs = some cv) ∧
    (∀ (cv : String) (vs : List String) (ct : List Nat),
      gateway_version_to_tuple cv = some ct → cv ∈ vs →
      (ct, cv) ∈ gatewayCandidates cv vs) := by
  have hparse : ∀ s : String, s ≠ "" → ∃ t, gateway_version_to_tuple s = some t := by
    intro s hs
    cases hp : gateway_version_to_tuple s with
    | none => exact absurd ((gateway_eq_none_iff s).mp hp) hs
    | some t => exact ⟨t, rfl⟩
  refine ⟨hparse, ?_, ?_, ?_⟩
  · intro cv vs h1 h2
    obtain ⟨ct, hct⟩ := hparse cv h1
    have hne := gatewayCandidates_ne_nil cv vs ct hct
    rw [max_gateway_eq_lastArgmax cv vs h1 h2]
    cases hl : lastArgmax Prod.fst (gatewayCandidates cv vs) with
    | none => exact absurd ((lastArgmax_eq_none_iff _ _).mp hl) hne
    | some p => exact ⟨p.2, rfl⟩
  · intro cv vs ct h1 h2 hct hbase
    have hin : cv ∉ vs := by
      intro hmem
      have hm : (ct, cv) ∈ gatewayBranchMatches (ct.take 2) vs :=
        (gatewayBranchMatches_mem _ _ _ _).mpr ⟨hmem, hct, rfl⟩
      rw [hbase] at hm
      simp at hm
    have hcand : gatewayCandidates cv vs = [(ct, cv)] := by
      unfold gatewayCandidates
      rw [hct]
      simp only []
      rw [if_neg hin, if_pos trivial, hbase]
      rfl
    rw [max_gateway_eq_lastArgmax cv vs h1 h2, hcand]
    rfl
  · intro cv vs ct hct hin
    exact (gatewayCandidates_mem cv vs ct hct ct cv).mpr (Or.inl ⟨hin, hct, rfl⟩)

theorem C8_witness :
    max_version_same_branch_gateway "8.7.0.0-2.3.0.9" ["9.1.0.0-1.0.0.0"] =
      some "8.7.0.0-2.3.0.9" :=
  C8_gateway_nonnone.2.2.1 "8.7.0.0-2.3.0.9" ["9.1.0.0-1.0.0.0"]
    [8, 7, 0, 0, 2, 3, 0, 9] (by decide) (by decide) (by decide) (by decide)

/-- C6 counterexample: when two collected gateway candidates share the
greatest full key, the function returns the last-seen of them, not the
first-seen: with the current version present in the catalog followed by an
equal-key entry, the returned string is the later entry. -/
theorem C6_counterexample :
    gateway_version_to_tuple "8.7.0.0-2.3.0.9" =
      gateway_version_to_tuple "8.7.0.0-2.3.0.9_85196" ∧
    max_version_same_branch_gateway "8.7.0.0-2.3.0.9"
        ["8.7.0.0-2.3.0.9", "8.7.0.0-2.3.0.9_85196"] =
      some "8.7.0.0-2.3.0.9_85196" ∧
    ("8.7.0.0-2.3.0.9_85196" : String) ≠ "8.7.0.0-2.3.0.9" :=
  ⟨by decide, by decide, by decide⟩

/-- C6 amended: when several collected candidates share the greatest full
8-integer key, the one returned is the last-seen among them in the
pre-sort collection order: the returned candidate has maximal key and
everything after it in the collection order has a strictly smaller key. -/
theorem C6_amended_last_seen_tie (cv : String) (vs : List String)
    (h1 : cv ≠ "") (h2 : vs ≠ []) :
    ∃ p : List Nat × String,
      max_version_same_branch_gateway cv vs = some p.2 ∧
      lastArgmax Prod.fst (gatewayCandidates cv vs) = some p ∧
      (∀ q ∈ gatewayCandidates cv vs, lexLt p.1 q.1 = false) ∧
      ∃ l₁ l₂, gatewayCandidates cv vs = l₁ ++ p :: l₂ ∧
        ∀ q ∈ l₂, lexLt q.1 p.1 = true := by
  obtain ⟨ct, hct⟩ : ∃ ct, gateway_version_to_tuple cv = some ct := by
    cases hp : gateway_version_to_tuple cv with
    | none => exact absurd ((gateway_eq_none_iff cv).mp hp) h1
    | some ct => exact ⟨ct, rfl⟩
  have hne := gatewayCandidates_ne_nil cv vs ct hct
  rw [max_gateway_eq_lastArgmax cv vs h1 h2]
  cases hl : lastArgmax Prod.fst (gatewayCandidates cv vs) with
  | none => exact absurd ((lastArgmax_eq_none_iff _ _).mp hl) hne
  | some p =>
    obtain ⟨_, hmax⟩ := lastArgmax_mem_max Prod.fst _ p hl
    obtain ⟨l₁, l₂, hdec, hsuf⟩ := lastArgmax_decomp Prod.fst _ p hl
    exact ⟨p, rfl, rfl, hmax, l₁, l₂, hdec, hsuf⟩

theorem C6_witness :
    ∃ p : List Nat × String,
      max_version_same_branch_gateway "8.7.0.0-2.3.0.9"
          ["8.7.0.0-2.3.0.9", "8.7.0.0-2.3.0.9_85196"] = some p.2 ∧
      lastArgmax Prod.fst (gatewayCandidates "8.7.0.0-2.3.0.9"
          ["8.7.0.0-2.3.0.9", "8.7.0.0-2.3.0.9_85196"]) = some p ∧
      (∀ q ∈ gatewayCandidates "8.7.0.0-2.3.0.9"
          ["8.7.0.0-2.3.0.9", "8.7.0.0-2.3.0.9_85196"],
        lexLt p.1 q.1 = false) ∧
      ∃ l₁ l₂, gatewayCandidates "8.7.0.0-2.3.0.9"
          ["8.7.0.0-2.3.0.9", "8.7.0.0-2.3.0.9_85196"] = l₁ ++ p :: l₂ ∧
        ∀ q ∈ l₂, lexLt q.1 p.1 = true :=
  C6_amended_last_seen_tie "8.7.0.0-2.3.0.9"
    ["8.7.0.0-2.3.0.9", "8.7.0.0-2.3.0.9_85196"] (by decide) (by decide)

/-- C9 counterexample: appending a duplicate of a version string already
present in the catalog changes the value returned by the simple-dialect
maximum: two distinct strings with the same key tie, and the duplicate
moves which of them is last after the stable sort. -/
theorem C9_counterexample :
    max_version_same_branch "8.13.0.0" ["8.13.0.1", "8.13.00.1"] =
      some "8.13.00.1" ∧
    max_version_same_branch "8.13.0.0" ["8.13.0.1", "8.13.00.1", "8.13.0.1"] =
      some "8.13.0.1" ∧
    ("8.13.00.1" : String) ≠ "8.13.0.1" :=
  ⟨by decide, by decide, by decide⟩

/-- C9 amended: replacing the catalog by any catalog with the same set of
version strings (in particular inserting duplicates of present strings)
changes neither the membership of the branch filter, nor whether either
maximum returns a result, nor the parsed key of the returned version; only
the identity of the returned string among equal-key spellings can move. -/
theorem C9_amended_set_invariance (cv : String) (vs₁ vs₂ : List String)
    (hset : ∀ x, x ∈ vs₁ ↔ x ∈ vs₂) :
    (∀ v, v ∈ filter_versions_same_branch_higher cv vs₁ ↔
      v ∈ filter_versions_same_branch_higher cv vs₂) ∧
    ((max_version_same_branch cv vs₁).isSome = true ↔
      (max_version_same_branch cv vs₂).isSome = true) ∧
    ((max_version_same_branch cv vs₁).bind (fun r => version_to_tuple r 4) =
      (max_version_same_branch cv vs₂).bind (fun r => version_to_tuple r 4)) ∧
    ((max_version_same_branch_gateway cv vs₁).isSome = true ↔
      (max_version_same_branch_gateway cv vs₂).isSome = true) ∧
    ((max_version_same_branch_gateway cv vs₁).bind gateway_version_to_tuple =
      (max_version_same_branch_gateway cv vs₂).bind gateway_version_to_tuple) := by
  have hfilter : ∀ v, v ∈ filter_versions_same_branch_higher cv vs₁ ↔
      v ∈ filter_versions_same_branch_higher cv vs₂ := by
    intro v
    cases hp : version_to_tuple cv 4 with
    | none =>
      rw [filter_eq_nil_of_unparsable cv vs₁ hp,
        filter_eq_nil_of_unparsable cv vs₂ hp]
    | some ct =>
      rw [filter_eq_sort_kept cv vs₁ ct hp, filter_eq_sort_kept cv vs₂ ct hp,
        List.mem_insertionSort, List.mem_insertionSort, simpleKept_mem,
        simpleKept_mem, hset v]
  have hkept : ∀ (ct : List Nat) (v : String),
      v ∈ simpleKept ct vs₁ ↔ v ∈ simpleKept ct vs₂ := by
    intro ct v
    rw [simpleKept_mem, simpleKept_mem, hset v]
  have hnil_iff : filter_versions_same_branch_higher cv vs₁ = [] ↔
      filter_versions_same_branch_higher cv vs₂ = [] := by
    rw [List.eq_nil_iff_forall_not_mem, List.eq_nil_iff_forall_not_mem]
    constructor
    · intro h v hv
      exact h v ((hfilter v).mpr hv)
    · intro h v hv
      exact h v ((hfilter v).mp hv)
  have hsome : (max_version_same_branch cv vs₁).isSome = true ↔
      (max_version_same_branch cv vs₂).isSome = true := by
    rw [max_simple_eq_getLast?, max_simple_eq_getLast?,
      getLast?_isSome_iff, getLast?_isSome_iff]
    constructor
    · intro h he
      exact h (hnil_iff.mpr he)
    · intro h he
      exact h (hnil_iff.mp he)
  have hkey : (max_version_same_branch cv vs₁).bind (fun r => version_to_tuple r 4) =
      (max_version_same_branch cv vs₂).bind (fun r => version_to_tuple r 4) := by
    cases hp : version_to_tuple cv 4 with
    | none =>
      rw [max_simple_eq_getLast?, max_simple_eq_getLast?,
        filter_eq_nil_of_unparsable cv vs₁ hp,
        filter_eq_nil_of_unparsable cv vs₂ hp]
    | some ct =>
      cases h₁ : max_version_same_branch cv vs₁ with
      | none =>
        cases h₂ : max_version_same_branch cv vs₂ with
        | none => rfl
        | some r₂ =>
          exfalso
          have hs := hsome.mpr (by rw [h₂]; rfl)
          rw [h₁] at hs
          simp at hs
      | some r₁ =>
        cases h₂ : max_version_same_branch cv vs₂ with
        | none =>
          exfalso
          have hs := hsome.mp (by rw [h₁]; rfl)
          rw [h₂] at hs
          simp at hs
        | some r₂ =>
          have e₁ : lastArgmax sortKeyFun (simpleKept ct vs₁) = some r₁ := by
            rw [← max_simple_eq_lastArgmax cv vs₁ ct hp]
            exact h₁
          have e₂ : lastArgmax sortKeyFun (simpleKept ct vs₂) = some r₂ := by
            rw [← max_simple_eq_lastArgmax cv vs₂ ct hp]
            exact h₂
          obtain ⟨m₁, x₁⟩ := lastArgmax_mem_max sortKeyFun _ r₁ e₁
          obtain ⟨m₂, x₂⟩ := lastArgmax_mem_max sortKeyFun _ r₂ e₂
          have ha : lexLt (sortKeyFun r₁) (sortKeyFun r₂) = false :=
            x₁ r₂ ((hkept ct r₂).mpr m₂)
          have hb : lexLt (sortKeyFun r₂) (sortKeyFun r₁) = false :=
            x₂ r₁ ((hkept ct r₁).mp m₁)
          have hkeq : sortKeyFun r₁ = sortKeyFun r₂ :=
            lexLt_eq_of_both_false _ _ ha hb
          show version_to_tuple r₁ 4 = version_to_tuple r₂ 4
          rw [simpleKept_key ct vs₁ r₁ m₁, simpleKept_key ct vs₂ r₂ m₂, hkeq]
  have hgw : ((max_version_same_branch_gateway cv vs₁).isSome = true ↔
      (max_version_same_branch_gateway cv vs₂).isSome = true) ∧
      ((max_version_same_branch_gateway cv vs₁).bind gateway_version_to_tuple =
        (max_version_same_branch_gateway cv vs₂).bind gateway_version_to_tuple) := by
    by_cases hcv : cv = ""
    · subst hcv
      unfold max_version_same_branch_gateway
      rw [if_pos (Or.inl rfl), if_pos (Or.inl rfl)]
      exact ⟨Iff.rfl, rfl⟩
    · by_cases hv1 : vs₁ = []
      · have hv2 : vs₂ = [] := by
          rw [List.eq_nil_iff_forall_not_mem]
          intro x hx
          subst hv1
          exact absurd ((hset x).mpr hx) (by simp)
        subst hv1
        subst hv2
        exact ⟨Iff.rfl, rfl⟩
      · have hv2 : vs₂ ≠ [] := by
          intro he
          apply hv1
          rw [List.eq_nil_iff_forall_not_mem]
          intro x hx
          subst he
          exact absurd ((hset x).mp hx) (by simp)
        obtain ⟨ct, hct⟩ : ∃ ct, gateway_version_to_tuple cv = some ct := by
          cases hp : gateway_version_to_tuple cv with
          | none => exact absurd ((gateway_eq_none_iff cv).mp hp) hcv
          | some ct => exact ⟨ct, rfl⟩
        have hmemiff : ∀ q : List Nat × String,
            q ∈ gatewayCandidates cv vs₁ ↔ q ∈ gatewayCandidates cv vs₂ := by
          intro q
          obtain ⟨k, s⟩ := q
          rw [gatewayCandidates_mem cv vs₁ ct hct, gatewayCandidates_mem cv vs₂ ct hct,
            hset s, hset cv]
        rw [max_gateway_eq_lastArgmax cv vs₁ hcv hv1,
          max_gateway_eq_lastArgmax cv vs₂ hcv hv2]
        cases hl₁ : lastArgmax Prod.fst (gatewayCandidates cv vs₁) with
        | none =>
          exact absurd ((lastArgmax_eq_none_iff _ _).mp hl₁)
            (gatewayCandidates_ne_nil cv vs₁ ct hct)
        | some p₁ =>
          cases hl₂ : lastArgmax Prod.fst (gatewayCandidates cv vs₂) with
          | none =>
            exact absurd ((lastArgmax_eq_none_iff _ _).mp hl₂)
              (gatewayCandidates_ne_nil cv vs₂ ct hct)
          | some p₂ =>
            obtain ⟨mm₁, mx₁⟩ := lastArgmax_mem_max Prod.fst _ p₁ hl₁
            obtain ⟨mm₂, mx₂⟩ := lastArgmax_mem_max Prod.fst _ p₂ hl₂
            have ha : lexLt p₁.1 p₂.1 = false := mx₁ p₂ ((hmemiff p₂).mpr mm₂)
            have hb : lexLt p₂.1 p₁.1 = false := mx₂ p₁ ((hmemiff p₁).mp mm₁)
            have hkeq : p₁.1 = p₂.1 := lexLt_eq_of_both_false _ _ ha hb
            constructor
            · simp
            · show gateway_version_to_tuple p₁.2 = gateway_version_to_tuple p₂.2
              rw [gatewayCandidates_pairs cv vs₁ p₁ mm₁,
                gatewayCandidates_pairs cv vs₂ p₂ mm₂, hkeq]
  exact ⟨hfilter, hsome, hkey, hgw.1, hgw.2⟩

theorem C9_witness :
    (∀ v, v ∈ filter_versions_same_branch_higher "8.13.0.0" ["8.13.0.1"] ↔
      v ∈ filter_versions_same_branch_higher "8.13.0.0" ["8.13.0.1", "8.13.0.1"]) ∧
    ((max_version_same_branch "8.13.0.0" ["8.13.0.1"]).isSome = true ↔
      (max_version_same_branch "8.13.0.0" ["8.13.0.1", "8.13.0.1"]).isSome = true) ∧
    ((max_version_same_branch "8.13.0.0" ["8.13.0.1"]).bind
        (fun r => version_to_tuple r 4) =
      (max_version_same_branch "8.13.0.0" ["8.13.0.1", "8.13.0.1"]).bind
        (fun r => version_to_tuple r 4)) ∧
    ((max_version_same_branch_gateway "8.13.0.0" ["8.13.0.1"]).isSome = true ↔
      (max_version_same_branch_gateway "8.13.0.0" ["8.13.0.1", "8.13.0.1"]).isSome
        = true) ∧
    ((max_version_same_branch_gateway "8.13.0.0" ["8.13.0.1"]).bind
        gateway_version_to_tuple =
      (max_version_same_branch_gateway "8.13.0.0" ["8.13.0.1", "8.13.0.1"]).bind
        gateway_version_to_tuple) :=
  C9_amended_set_invariance "8.13.0.0" ["8.13.0.1"] ["8.13.0.1", "8.13.0.1"]
    (by intro x; simp)

/-- C10 counterexample: a model string containing 6300 is not always
compared against the CX catalog: when it also contains 2930F the HP branch
takes precedence, and the returned value is the HP-catalog comparison,
which differs from the CX-catalog comparison. -/
theorem C10_counterexample :
    containsSub "6300".data ((((some "6300-2930F").getD "").data).map Char.toUpper) = true ∧
    determiner_version_max (some ["1.0.0.1"]) (some ["2.0.0.1"])
        (some "6300-2930F") (some "1.0.0.0") = some "1.0.0.1" ∧
    max_version_same_branch "1.0.0.0" ["2.0.0.1"] = none ∧
    (some "1.0.0.1" : Option String) ≠ none :=
  ⟨by decide, by decide, by decide, by decide⟩

/-- C10 amended: for a row with a non-empty current firmware version, a
model containing 2930F (case-insensitively) is compared against the HP
catalog whenever that catalog is available and non-empty; a model
containing 6300 or CX but not 2930F is compared against the CX catalog
whenever that catalog is available and non-empty (2930F takes precedence
when both families match). -/
theorem C10_amended_classification (vhp vcx : Option (List String))
    (modele : Option String) (va : String) (hva : va ≠ "") :
    (∀ lhp : List String, lhp ≠ [] →
      containsSub "2930F".data (((modele.getD "").data).map Char.toUpper) = true →
      determiner_version_max (some lhp) vcx modele (some va) =
        max_version_same_branch va lhp) ∧
    (∀ lcx : List String, lcx ≠ [] →
      containsSub "2930F".data (((modele.getD "").data).map Char.toUpper) = false →
      (containsSub "6300".data (((modele.getD "").data).map Char.toUpper) = true ∨
        containsSub "CX".data (((modele.getD "").data).map Char.toUpper) = true) →
      determiner_version_max vhp (some lcx) modele (some va) =
        max_version_same_branch va lcx) := by
  constructor
  · intro lhp hne h2930
    have htr : pyTruthy (some lhp) = true := by
      unfold pyTruthy
      cases lhp with
      | nil => exact absurd rfl hne
      | cons a t => rfl
    simp [determiner_version_max, hva, htr, h2930, hne]
  · intro lcx hne h2930 hor
    have htr : pyTruthy (some lcx) = true := by
      unfold pyTruthy
      cases lcx with
      | nil => exact absurd rfl hne
      | cons a t => rfl
    rcases hor with h6300 | hcx
    · simp [determiner_version_max, hva, htr, h2930, h6300, hne]
    · simp [determiner_version_max, hva, htr, h2930, hcx, hne]

theorem C10_witness :
    determiner_version_max (some ["8.13.0.1"]) none
        (some "Aruba 2930f") (some "8.13.0.0") =
      max_version_same_branch "8.13.0.0" ["8.13.0.1"] ∧
    determiner_version_max none (some ["8.13.0.1"])
        (some "6300M") (some "8.13.0.0") =
      max_version_same_branch "8.13.0.0" ["8.13.0.1"] :=
  ⟨(C10_amended_classification (some ["8.13.0.1"]) none (some "Aruba 2930f")
      "8.13.0.0" (by decide)).1 ["8.13.0.1"] (by decide) (by decide),
   (C10_amended_classification none (some ["8.13.0.1"]) (some "6300M")
      "8.13.0.0" (by decide)).2 ["8.13.0.1"] (by decide) (by decide)
      (Or.inl (by decide))⟩

end Aruba
